import Mathlib

/-!
# Verification of the editor core of ai-wikipedia-guidelines-checker

Shallow embedding of the position-mapping, span-location, acceptance and
highlight logic of `src/ui/src/components/Editor.tsx` (with the status flip
performed by `onFeedbackAccepted` in `src/ui/src/App.tsx`), together with
theorems settling the frozen claims about it.

Text is modelled as `List Char`.  The structured document handed to the
editor is modelled as a tree of text leaves and block nodes, mirroring the
node kinds that the token-building traversal in `Editor.tsx` distinguishes
(`node.isText` and `node.isBlock`); positions follow the ProseMirror scheme
the code relies on: a text node of length `n` occupies `n` positions, a
block node occupies its children plus an opening and a closing position.
-/

/-- A node of the structured document: a leaf text run or a block node with
children.  These are the two node kinds the `descendants` traversal in
`Editor.tsx` handles (`isText` / `isBlock`). -/
inductive PMNode where
  | text : List Char → PMNode
  | block : List PMNode → PMNode
deriving Repr

/-- A document is the list of children of the document root (the traversal
`editor.state.doc.descendants` visits the descendants of the root, not the
root itself, and positions start at 0 at the first child). -/
abbrev PMDoc := List PMNode

mutual

/-- ProseMirror node size: a text node occupies its length, a block node
occupies its children plus the two boundary positions. -/
def nodeSize : PMNode → Nat
  | .text s => s.length
  | .block cs => 2 + sizeOfList cs

/-- Total size of a list of sibling nodes. -/
def sizeOfList : List PMNode → Nat
  | [] => 0
  | n :: ns => nodeSize n + sizeOfList ns

end

/-- One entry of the flat-token sequence built by the feedback-acceptance
effect in `Editor.tsx` (lines 115-125): `{ text, pos, isVirtual }`. -/
structure Tok where
  text : List Char
  pos : Nat
  isVirtual : Bool
deriving Repr, DecidableEq

mutual

/-- Tokens contributed by one node at position `pos`: a text node pushes
itself (`isVirtual = false`); a block node pushes a virtual `"\n"` token at
its own position and then its children starting at `pos + 1`.  Mirrors the
`doc.descendants((node, pos) => ...)` callback in `Editor.tsx`. -/
def tokensOfNode (pos : Nat) : PMNode → List Tok
  | .text s => [⟨s, pos, false⟩]
  | .block cs => ⟨['\n'], pos, true⟩ :: tokensOfList (pos + 1) cs

/-- Tokens of a list of siblings starting at position `pos`. -/
def tokensOfList (pos : Nat) : List PMNode → List Tok
  | [] => []
  | n :: ns => tokensOfNode pos n ++ tokensOfList (pos + nodeSize n) ns

end

/-- The token sequence the acceptance effect builds for a document. -/
def docTokens (d : PMDoc) : List Tok := tokensOfList 0 d

/-- Concatenation of the `text` fields of a token list, in order. -/
def textConcat : List Tok → List Char
  | [] => []
  | t :: ts => t.text ++ textConcat ts

/-- The flat text of the acceptance effect:
`const fullText = tokens.map(t => t.text).join('')`. -/
def fullText (d : PMDoc) : List Char := textConcat (docTokens d)

mutual

/-- The structural flat string of one node: a text leaf contributes its
characters, a block contributes a newline followed by its children's flat
strings.  Independent structural description used to check the round-trip
invariant. -/
def flatOfNode : PMNode → List Char
  | .text s => s
  | .block cs => '\n' :: flatOfList cs

/-- Structural flat string of a list of siblings. -/
def flatOfList : List PMNode → List Char
  | [] => []
  | n :: ns => flatOfNode n ++ flatOfList ns

end

/-- The fallback of `getPosFromIndex` when the scan runs past every token:
`tokens[tokens.length - 1]` gives `last.pos + last.text.length`, and `0`
for an empty token list. -/
def fallbackPos (ts : List Tok) : Nat :=
  match ts.getLast? with
  | some t => t.pos + t.text.length
  | none => 0

/-- The scanning loop of `getPosFromIndex` in `Editor.tsx` (lines 147-167).
The source reads the fallback from the full token array
(`tokens[tokens.length - 1]`); since the loop walks that same array front to
back, the fallback is passed here as a fixed parameter. -/
def getPosAux (fallback : Nat) : List Tok → Nat → Nat → Nat
  | [], _, _ => fallback
  | t :: ts, targetIndex, currentLen =>
      if targetIndex < currentLen + t.text.length then
        if t.isVirtual then t.pos + 1
        else t.pos + (targetIndex - currentLen)
      else
        getPosAux fallback ts targetIndex (currentLen + t.text.length)

/-- `getPosFromIndex(targetIndex)` from `Editor.tsx`. -/
def getPosFromIndex (ts : List Tok) (targetIndex : Nat) : Nat :=
  getPosAux (fallbackPos ts) ts targetIndex 0

/-! ## Fuzzy span locator

`Editor.tsx` lines 129-140: the original sentence is trimmed, split on
whitespace runs (`/\s+/`), each part is escaped for literal matching by
`escapeRegExp`, the parts are joined with `\s+` and the resulting regular
expression is run over the flat text with `exec` (leftmost match).

The embedding models the regex semantically: since `escapeRegExp` escapes
every metacharacter, each part matches itself literally, and a `\s+`
separator matches a nonempty run of JavaScript whitespace.  Because every
part produced by splitting a trimmed nonempty string on whitespace runs is
a nonempty run of non-whitespace characters, the greedy `\s+` can only ever
match the maximal whitespace run in front of the next part, so the matcher
below consumes maximal runs. -/

/-- JavaScript's `\s` character class. -/
def jsWs (c : Char) : Bool :=
  c == ' ' || c == '\t' || c == '\n' || c == '\r' ||
  c == '\u000B' || c == '\u000C' || c == '\u00A0' || c == '\u1680' ||
  ('\u2000' ≤ c && c ≤ '\u200A') || c == '\u2028' || c == '\u2029' ||
  c == '\u202F' || c == '\u205F' || c == '\u3000' || c == '\uFEFF'

/-- JavaScript `String.prototype.trim`: strip whitespace from both ends. -/
def jsTrim (s : List Char) : List Char :=
  ((s.dropWhile jsWs).reverse.dropWhile jsWs).reverse

/-- Splitting a string with no leading/trailing whitespace into its maximal
runs of non-whitespace characters (accumulator holds the current run,
reversed). -/
def wordsAux (acc : List Char) : List Char → List (List Char)
  | [] => if acc.isEmpty then [] else [acc.reverse]
  | c :: cs =>
      if jsWs c then
        if acc.isEmpty then wordsAux [] cs
        else acc.reverse :: wordsAux [] cs
      else wordsAux (c :: acc) cs

/-- Maximal non-whitespace runs of a string. -/
def wordsWs (s : List Char) : List (List Char) := wordsAux [] s

/-- `original_sentence.trim().split(/\s+/)` from `Editor.tsx` line 136.
JavaScript's `"".split(/\s+/)` yields `[""]`, so a sentence that trims to
the empty string produces the single empty part (and hence the empty
pattern); any other trimmed string splits into its whitespace-run-separated
words. -/
def sentenceParts (sentence : List Char) : List (List Char) :=
  let t := jsTrim sentence
  if t.isEmpty then [[]] else wordsWs t

/-- Literal prefix test on character lists. -/
def listPre : List Char → List Char → Bool
  | [], _ => true
  | _ :: _, [] => false
  | a :: as, b :: bs => a == b && listPre as bs

/-- Match the remaining parts of the pattern, each preceded by a `\s+`
separator (matched greedily as the maximal whitespace run).  Returns the
number of characters consumed. -/
def matchRest : List (List Char) → List Char → Option Nat
  | [], _ => some 0
  | w :: ws, text =>
      let sep := text.takeWhile jsWs
      if sep.isEmpty then none
      else
        let t1 := text.drop sep.length
        if listPre w t1 then
          (matchRest ws (t1.drop w.length)).map (fun n => sep.length + w.length + n)
        else none

/-- Match the whole pattern at the start of `text`; the first part carries
no leading separator.  Returns the matched length. -/
def matchAt (pat : List (List Char)) (text : List Char) : Option Nat :=
  match pat with
  | [] => some 0
  | w :: ws =>
      if listPre w text then
        (matchRest ws (text.drop w.length)).map (fun n => w.length + n)
      else none

/-- `regex.exec(fullText)`: scan positions left to right and return the
first (leftmost) match as the half-open span `(start, end)`. -/
def execFrom (pat : List (List Char)) : Nat → List Char → Option (Nat × Nat)
  | p, [] =>
      match matchAt pat [] with
      | some L => some (p, p + L)
      | none => none
  | p, c :: t =>
      match matchAt pat (c :: t) with
      | some L => some (p, p + L)
      | none => execFrom pat (p + 1) t

/-- The locator: build the pattern from the sentence and search the flat
text for its first match (`Editor.tsx` lines 136-140); `none` models the
no-match (`NotFound`) outcome. -/
def locate (flatText sentence : List Char) : Option (Nat × Nat) :=
  execFrom (sentenceParts sentence) 0 flatText

/-! ## Feedback records and the acceptance flow -/

/-- `issue_type` of a feedback record (`App.tsx`). -/
inductive IssueType where
  | npov | verifiability | originalResearch | style
deriving Repr, DecidableEq

/-- `severity` of a feedback record (`App.tsx`). -/
inductive Severity where
  | high | medium | low
deriving Repr, DecidableEq

/-- `status` of a feedback record (`App.tsx`). -/
inductive Status where
  | pending | accepted | rejected
deriving Repr, DecidableEq

/-- A feedback record (`interface Feedback` in `App.tsx`). -/
structure Feedback where
  original_sentence : List Char
  feedback : List Char
  suggested_text : List Char
  issue_type : IssueType
  severity : Severity
  start_index : Nat
  end_index : Nat
  status : Status
deriving Repr, DecidableEq

/-- Outcome of one run of the acceptance effect (`Editor.tsx` lines
108-190): the mutation was applied and `onAcceptComplete` fired with the
new document; or the locator found no match (alert, nothing changed); or
the mutation primitive threw and the `catch` swallowed it (alert, no
completion signal). -/
inductive AcceptResult where
  | applied : PMDoc → AcceptResult
  | spanNotFound : AcceptResult
  | mutationFailed : AcceptResult
deriving Repr

/-- The document-host mutation primitive consumed by the acceptance effect
(`deleteRange({from,to})` chained with `insertContentAt(from, text)`),
treated as one combined edit; `none` models the primitive raising.  The
acceptance effect is parametrised over it. -/
abbrev MutatePrim := PMDoc → Nat → Nat → List Char → Option PMDoc

/-- The feedback-acceptance effect of `Editor.tsx` (lines 108-190): build
the token sequence and flat text, run the locator on `original_sentence`;
on a match, map the flat span to document positions and invoke the mutation
primitive, reporting success (completion signalled) or a caught exception;
on no match, report `spanNotFound` without touching the document. -/
def acceptFeedback (mutate : MutatePrim) (d : PMDoc) (fb : Feedback) :
    AcceptResult :=
  let tokens := docTokens d
  let flat := textConcat tokens
  match locate flat fb.original_sentence with
  | none => .spanNotFound
  | some (s, e) =>
      let posFrom := getPosFromIndex tokens s
      let posTo := getPosFromIndex tokens e
      match mutate d posFrom posTo fb.suggested_text with
      | some d2 => .applied d2
      | none => .mutationFailed

/-- The document state after the acceptance effect: the mutated document on
success, the untouched input otherwise. -/
def docAfterAccept (r : AcceptResult) (d : PMDoc) : PMDoc :=
  match r with
  | .applied d2 => d2
  | _ => d

/-- The record's status after the acceptance flow: `onAcceptComplete` is
invoked only on success, and `onFeedbackAccepted` in `App.tsx` (lines
97-111) then flips the record to `accepted`; on every other outcome no
completion signal is emitted and the status is left as it was. -/
def statusAfterAccept (r : AcceptResult) (st : Status) : Status :=
  match r with
  | .applied _ => .accepted
  | _ => st

/-- Modelled from the spec: the document host's combined
delete-range-then-insert-at-position primitive (§6 "Document host
interface"), which lives in the external editor library and not under
`src/`.  Modelled for a document consisting of a single block of text runs:
the block's content occupies positions `1` through `1 + length`, the
characters in `[from, to)` are removed and the inserted text placed at
`from`; any other shape or out-of-range positions raise (`none`). -/
def replaceRange : MutatePrim := fun d posFrom posTo ins =>
  match d with
  | [PMNode.block runs] =>
      match runsText runs with
      | some txt =>
          if 1 ≤ posFrom ∧ posFrom ≤ posTo ∧ posTo ≤ 1 + txt.length then
            some [PMNode.block
              [PMNode.text (txt.take (posFrom - 1) ++ ins ++ txt.drop (posTo - 1))]]
          else none
      | none => none
  | _ => none
where
  /-- Concatenated text of a run list, `none` if a child is not a text leaf. -/
  runsText : List PMNode → Option (List Char)
    | [] => some []
    | PMNode.text s :: rest => (runsText rest).map (fun r => s ++ r)
    | PMNode.block _ :: _ => none

/-! ## Highlight pass

`Editor.tsx` lines 193-246: per refresh, existing markers are stripped
(restoring the bare text runs), and then for every feedback record with
status `pending` a tree walker scans the rendered text runs in order,
accumulating `currentPos`; the single run containing `start_index` (if
any) gets a marker over `[start_index - nodeStart, min(end_index -
nodeStart, nodeLength))` provided that interval is nonempty, with the
DOM surgery (`range.surroundContents`) wrapped in a `try/catch` that
ignores any error.  The rendered view is modelled as the ordered list of
its text runs; the DOM surgery is a parameter (it belongs to the browser,
not to `src/`), returning `none` when it throws. -/

/-- A marker computed by the walker loop for one record: the index of the
rendered text run it lies in and the relative character interval inside
that run. -/
structure Marker where
  runIdx : Nat
  relStart : Nat
  relEnd : Nat
deriving Repr, DecidableEq

/-- Total length of a list of rendered text runs. -/
def runsLen : List (List Char) → Nat
  | [] => 0
  | r :: rs => r.length + runsLen rs

/-- Concatenated text of the rendered runs (the document text the pass
must not corrupt). -/
def runsConcat : List (List Char) → List Char
  | [] => []
  | r :: rs => r ++ runsConcat rs

/-- The walker loop of the highlight pass for one record (lines 217-244):
find the run whose `[nodeStart, nodeEnd)` interval contains `start_index`
and compute the relative marker bounds, clamping the end to the run length;
an empty interval paints nothing.  The source loop keeps walking after the
containing run, but the containment test can succeed for at most one run
(later runs start at or after the end of the containing one), so the walk
returns at the first hit. -/
def walkPaint (s e : Nat) : List (List Char) → Nat → Nat → Option Marker
  | [], _, _ => none
  | r :: rs, i, c =>
      if c ≤ s ∧ s < c + r.length then
        let relS := s - c
        let relE := min (e - c) r.length
        if relS < relE then some ⟨i, relS, relE⟩ else none
      else walkPaint s e rs (i + 1) (c + r.length)

/-- The DOM surgery applying one marker (`document.createRange` /
`range.surroundContents`), external to `src/`: it either returns the
updated run list or throws (`none`), in which case the `catch` in
`Editor.tsx` ignores the error. -/
abbrev PaintPrim := List (List Char) → Marker → Option (List (List Char))

/-- Processing of one pending record: run the walker; if it yields a
marker, attempt the DOM surgery, ignoring a thrown error (the record is
then silently dropped for this refresh). -/
def highlightOne (paint : PaintPrim) (runs : List (List Char))
    (fb : Feedback) : List (List Char) × Option Marker :=
  match walkPaint fb.start_index fb.end_index runs 0 0 with
  | none => (runs, none)
  | some m =>
      match paint runs m with
      | some runs2 => (runs2, some m)
      | none => (runs, none)

/-- The highlight pass over a feedback list: records with status
`pending` are processed in order (`feedbacks.filter(fb => fb.status ===
'pending').forEach(...)`), each seeing the runs left by the previous one;
the painted markers are collected. -/
def highlightPass (paint : PaintPrim) (runs : List (List Char)) :
    List Feedback → List (List Char) × List Marker
  | [] => (runs, [])
  | fb :: fbs =>
      if fb.status = Status.pending then
        let step := highlightOne paint runs fb
        let rest := highlightPass paint step.1 fbs
        (rest.1, (match step.2 with | some m => [m] | none => []) ++ rest.2)
      else highlightPass paint runs fbs

/-- The rendered view the highlight effect works on: the ordered text runs
of the editor DOM plus the feedback records it reads. -/
structure EditorView where
  runs : List (List Char)
  feedbacks : List Feedback

/-- One full highlight refresh: the pass repaints the runs; the feedback
records are only read (the effect never writes a status). -/
def highlightRefresh (paint : PaintPrim) (v : EditorView) :
    EditorView × List Marker :=
  let out := highlightPass paint v.runs v.feedbacks
  (⟨out.1, v.feedbacks⟩, out.2)

/-! ## Declarative pattern semantics and auxiliary definitions

`SepMatch pat s` states, following the spec's description of the locator
pattern ("tokenize the sentence on whitespace runs, escape each token for
literal matching, join with one-or-more-whitespace as the separator"), that
the string `s` consists of the pattern's parts in order, each consecutive
pair separated by a nonempty run of whitespace. -/

/-- The separated tail of a pattern match: every remaining part is preceded
by a nonempty whitespace run. -/
def SepRest : List (List Char) → List Char → Prop
  | [], s => s = []
  | w :: ws, s =>
      ∃ sep rest, s = sep ++ w ++ rest ∧ sep ≠ [] ∧
        (∀ c ∈ sep, jsWs c = true) ∧ SepRest ws rest

/-- `s` matches the pattern whose parts are `pat`, joined by
one-or-more-whitespace separators. -/
def SepMatch : List (List Char) → List Char → Prop
  | [], s => s = []
  | w :: ws, s => ∃ rest, s = w ++ rest ∧ SepRest ws rest

/-- A word produced by splitting on whitespace runs: nonempty and free of
whitespace characters. -/
def goodWord (w : List Char) : Prop := w ≠ [] ∧ ∀ c ∈ w, jsWs c = false

/-- Sum of the token text lengths (the flat offset spanned by a token
list). -/
def tokLenSum : List Tok → Nat
  | [] => 0
  | t :: ts => t.text.length + tokLenSum ts

/-- The first flat position the scanning loop can return from inside a
token: the position after the block boundary for a virtual token, the
token's own position for a text run. -/
def tokMin (t : Tok) : Nat := if t.isVirtual then t.pos + 1 else t.pos

/-- The last flat position (exclusive bound) the scanning loop can return
from inside a token. -/
def tokEnd (t : Tok) : Nat :=
  if t.isVirtual then t.pos + 1 else t.pos + t.text.length

/-- Adjacency of a block-boundary token and a directly following text run:
the run starts one position past the block boundary. -/
def adjOK (a b : Tok) : Prop :=
  a.isVirtual = true → b.isVirtual = false → b.pos = a.pos + 1

/-- Whether a node is a block node. -/
def isBlockNode : PMNode → Bool
  | .text _ => false
  | .block _ => true

/-- ProseMirror content discipline: a block's children are either all
inline (text) or all blocks, never a mixture. -/
def inlineOrBlocks (cs : List PMNode) : Bool :=
  cs.all (fun c => !isBlockNode c) || cs.all isBlockNode

mutual

/-- Well-formed node: every block's children are uniformly inline or
uniformly blocks (the content discipline the editor's schema enforces). -/
def wfNode : PMNode → Bool
  | .text _ => true
  | .block cs => inlineOrBlocks cs && wfList cs

/-- Well-formedness of a list of nodes. -/
def wfList : List PMNode → Bool
  | [] => true
  | n :: ns => wfNode n && wfList ns

end

/-- Well-formed document: the root's children are blocks and every node
obeys the content discipline. -/
def wfDoc (d : PMDoc) : Bool := d.all isBlockNode && wfList d

mutual

/-- The end-of-content position of a node placed at `pos`: for a text run
the position after its last character, for a block the end position of its
last child (or the single interior position of an empty block).  This is
the "end of document" position a cursor reaches at the very end. -/
def nodeEndPos (pos : Nat) : PMNode → Nat
  | .text s => pos + s.length
  | .block cs =>
      match cs with
      | [] => pos + 1
      | _ :: _ => endPosList (pos + 1) cs

/-- End-of-content position of the last node of a sibling list starting at
`pos` (`pos` itself for an empty list). -/
def endPosList (pos : Nat) : List PMNode → Nat
  | [] => pos
  | [n] => nodeEndPos pos n
  | n :: ns => endPosList (pos + nodeSize n) ns

end

/-- End-of-document position: the end position of the document's last
child. -/
def docEndPos (d : PMDoc) : Nat := endPosList 0 d

/-! ## Theorems -/

theorem textConcat_append (a b : List Tok) :
    textConcat (a ++ b) = textConcat a ++ textConcat b := by
  induction a with
  | nil => rfl
  | cons t ts ih => simp [textConcat, ih]

mutual

theorem textConcat_tokensOfNode (p : Nat) (n : PMNode) :
    textConcat (tokensOfNode p n) = flatOfNode n := by
  cases n with
  | text s => simp [tokensOfNode, flatOfNode, textConcat]
  | block cs =>
      simp only [tokensOfNode, flatOfNode, textConcat,
        textConcat_tokensOfList (p + 1) cs]
      rfl

theorem textConcat_tokensOfList (p : Nat) (ns : List PMNode) :
    textConcat (tokensOfList p ns) = flatOfList ns := by
  cases ns with
  | nil => rfl
  | cons n ms =>
      simp only [tokensOfList, flatOfList, textConcat_append,
        textConcat_tokensOfNode p n,
        textConcat_tokensOfList (p + nodeSize n) ms]

end

/-- C5: For every document state, concatenating the text fields of the
built token sequence in order equals the flat text string that the same
build produces and that all offset arithmetic is performed against; both
coincide with the structural flat string of the document (one newline per
block boundary followed by the leaf text, in document order). -/
theorem c5_flat_round_trip (d : PMDoc) :
    textConcat (docTokens d) = fullText d ∧ fullText d = flatOfList d := by
  refine ⟨rfl, ?_⟩
  exact textConcat_tokensOfList 0 d

/-- C1: For a document whose text is "Paris is obviously the best city."
and a pending feedback record with that original sentence and suggestion
"Paris is the capital of France.", `accept` rewrites the document to a
single paragraph reading "Paris is the capital of France." and the
completion handler flips the record's status to `accepted`. -/
theorem c1_accept_paris :
    acceptFeedback replaceRange
        [PMNode.block [PMNode.text "Paris is obviously the best city.".data]]
        { original_sentence := "Paris is obviously the best city.".data,
          feedback := [],
          suggested_text := "Paris is the capital of France.".data,
          issue_type := .npov, severity := .high,
          start_index := 0, end_index := 35, status := .pending } =
      .applied [PMNode.block [PMNode.text "Paris is the capital of France.".data]] ∧
    statusAfterAccept
      (acceptFeedback replaceRange
        [PMNode.block [PMNode.text "Paris is obviously the best city.".data]]
        { original_sentence := "Paris is obviously the best city.".data,
          feedback := [],
          suggested_text := "Paris is the capital of France.".data,
          issue_type := .npov, severity := .high,
          start_index := 0, end_index := 35, status := .pending })
      Status.pending = Status.accepted := by
  exact ⟨rfl, rfl⟩

/-- C3: Whenever the locator finds no match for `original_sentence` in the
current flat text, the acceptance effect reports `spanNotFound`: the
document is left completely unchanged, no completion signal (`applied`) is
emitted, and a pending record's status stays `pending`. -/
theorem c3_not_found_leaves_doc (mutate : MutatePrim) (d : PMDoc)
    (fb : Feedback)
    (h : locate (fullText d) fb.original_sentence = none) :
    acceptFeedback mutate d fb = .spanNotFound ∧
    docAfterAccept (acceptFeedback mutate d fb) d = d ∧
    (∀ d2, acceptFeedback mutate d fb ≠ .applied d2) ∧
    statusAfterAccept (acceptFeedback mutate d fb) Status.pending =
      Status.pending := by
  have h2 : locate (textConcat (docTokens d)) fb.original_sentence = none := h
  have hres : acceptFeedback mutate d fb = .spanNotFound := by
    simp only [acceptFeedback, h2]
  refine ⟨hres, ?_, ?_, ?_⟩
  · rw [hres]; rfl
  · intro d2 hc; rw [hres] at hc; exact AcceptResult.noConfusion hc
  · rw [hres]; rfl

/-- Closed instance of `c3_not_found_leaves_doc`: document "The sky is
blue.", sentence "The sky is green." — the locator fails and the document
and status are untouched. -/
theorem c3_not_found_leaves_doc_witness :
    acceptFeedback replaceRange
        [PMNode.block [PMNode.text "The sky is blue.".data]]
        { original_sentence := "The sky is green.".data,
          feedback := [], suggested_text := "The sky is red.".data,
          issue_type := .npov, severity := .low,
          start_index := 0, end_index := 16, status := .pending } =
      .spanNotFound :=
  (c3_not_found_leaves_doc replaceRange
    [PMNode.block [PMNode.text "The sky is blue.".data]]
    { original_sentence := "The sky is green.".data,
      feedback := [], suggested_text := "The sky is red.".data,
      issue_type := .npov, severity := .low,
      start_index := 0, end_index := 16, status := .pending } rfl).1

/-- C8: Whenever the located span is found but the underlying
document-mutation primitive raises, the exception is caught: the effect
reports `mutationFailed`, no completion signal (`applied`) is emitted, and
a pending record's status stays `pending`. -/
theorem c8_mutation_failure_caught (mutate : MutatePrim) (d : PMDoc)
    (fb : Feedback) (s e : Nat)
    (hloc : locate (fullText d) fb.original_sentence = some (s, e))
    (hmut : mutate d (getPosFromIndex (docTokens d) s)
        (getPosFromIndex (docTokens d) e) fb.suggested_text = none) :
    acceptFeedback mutate d fb = .mutationFailed ∧
    (∀ d2, acceptFeedback mutate d fb ≠ .applied d2) ∧
    statusAfterAccept (acceptFeedback mutate d fb) Status.pending =
      Status.pending := by
  have h2 : locate (textConcat (docTokens d)) fb.original_sentence =
      some (s, e) := hloc
  have hres : acceptFeedback mutate d fb = .mutationFailed := by
    simp only [acceptFeedback, h2, hmut]
  refine ⟨hres, ?_, ?_⟩
  · intro d2 hc; rw [hres] at hc; exact AcceptResult.noConfusion hc
  · rw [hres]; rfl

/-- Closed instance of `c8_mutation_failure_caught`: a primitive that
always raises leaves the acceptance flow reporting `mutationFailed` on the
Paris document. -/
theorem c8_mutation_failure_caught_witness :
    acceptFeedback (fun _ _ _ _ => none)
        [PMNode.block [PMNode.text "Paris is obviously the best city.".data]]
        { original_sentence := "Paris is obviously the best city.".data,
          feedback := [],
          suggested_text := "Paris is the capital of France.".data,
          issue_type := .npov, severity := .high,
          start_index := 0, end_index := 35, status := .pending } =
      .mutationFailed :=
  (c8_mutation_failure_caught (fun _ _ _ _ => none)
    [PMNode.block [PMNode.text "Paris is obviously the best city.".data]]
    { original_sentence := "Paris is obviously the best city.".data,
      feedback := [],
      suggested_text := "Paris is the capital of France.".data,
      issue_type := .npov, severity := .high,
      start_index := 0, end_index := 35, status := .pending }
    1 34 rfl rfl).1

/-- C10: For a feedback record whose `original_sentence` is empty or
whitespace-only, the split yields the single empty part, so the locator's
pattern is empty and matches at offset 0 of any flat text; `accept`
therefore never reports `spanNotFound` for such a record: it deletes a
zero-length span and inserts `suggested_text` at the start of the
document's text, and the record's status becomes `accepted`. -/
theorem c10_empty_sentence (sentence : List Char)
    (h : jsTrim sentence = []) :
    sentenceParts sentence = [[]] ∧
    (∀ flat : List Char, locate flat sentence = some (0, 0)) ∧
    (∀ (txt : List Char) (fb : Feedback),
      fb.original_sentence = sentence →
      acceptFeedback replaceRange [PMNode.block [PMNode.text txt]] fb =
        .applied [PMNode.block [PMNode.text (fb.suggested_text ++ txt)]] ∧
      statusAfterAccept
        (acceptFeedback replaceRange [PMNode.block [PMNode.text txt]] fb)
        Status.pending = Status.accepted) := by
  have hparts : sentenceParts sentence = [[]] := by
    simp [sentenceParts, h]
  have hloc : ∀ flat : List Char, locate flat sentence = some (0, 0) := by
    intro flat
    have hm : matchAt [[]] flat = some 0 := by
      simp [matchAt, matchRest, listPre]
    cases flat with
    | nil => rw [locate, hparts, execFrom, hm]
    | cons c t => rw [locate, hparts, execFrom, hm]
  refine ⟨hparts, hloc, ?_⟩
  intro txt fb hfb
  have happ : acceptFeedback replaceRange [PMNode.block [PMNode.text txt]] fb =
      .applied [PMNode.block [PMNode.text (fb.suggested_text ++ txt)]] := by
    have hl := hloc (textConcat (docTokens [PMNode.block [PMNode.text txt]]))
    rw [← hfb] at hl
    simp only [acceptFeedback, hl]
    have hpos : getPosFromIndex (docTokens [PMNode.block [PMNode.text txt]]) 0
        = 1 := by
      simp [docTokens, tokensOfList, tokensOfNode, getPosFromIndex, getPosAux]
    simp only [hpos]
    simp [replaceRange, replaceRange.runsText, Nat.le_add_right]
  exact ⟨happ, by rw [happ]; rfl⟩

/-- Closed instance of `c10_empty_sentence`: accepting a record whose
original sentence is two spaces inserts the suggestion at the start of the
paragraph "Hello" and reports completion. -/
theorem c10_empty_sentence_witness :
    acceptFeedback replaceRange [PMNode.block [PMNode.text "Hello".data]]
        { original_sentence := "  ".data, feedback := [],
          suggested_text := "X".data, issue_type := .style,
          severity := .low, start_index := 0, end_index := 0,
          status := .pending } =
      .applied [PMNode.block [PMNode.text ("X".data ++ "Hello".data)]] :=
  ((c10_empty_sentence "  ".data rfl).2.2 "Hello".data
    { original_sentence := "  ".data, feedback := [],
      suggested_text := "X".data, issue_type := .style,
      severity := .low, start_index := 0, end_index := 0,
      status := .pending } rfl).1

theorem walkPaint_some (s e : Nat) :
    ∀ (runs : List (List Char)) (i c : Nat) (m : Marker),
    walkPaint s e runs i c = some m →
    ∃ pre r post, runs = pre ++ r :: post ∧
      m.runIdx = i + pre.length ∧
      c + runsLen pre ≤ s ∧ s < c + runsLen pre + r.length ∧
      m.relStart = s - (c + runsLen pre) ∧
      m.relEnd = min (e - (c + runsLen pre)) r.length := by
  intro runs
  induction runs with
  | nil => intro i c m h; exact absurd h (by simp [walkPaint])
  | cons r rs ih =>
      intro i c m h
      rw [walkPaint] at h
      by_cases hc : c ≤ s ∧ s < c + r.length
      · rw [if_pos hc] at h
        by_cases hlt : s - c < min (e - c) r.length
        · rw [if_pos hlt] at h
          injection h with h2
          subst h2
          refine ⟨[], r, rs, rfl, ?_, ?_, ?_, ?_, ?_⟩ <;>
            simp [runsLen, hc.1, hc.2]
        · rw [if_neg hlt] at h; exact absurd h (by simp)
      · rw [if_neg hc] at h
        obtain ⟨pre, r2, post, hsplit, hidx, hlo, hhi, hrs, hre⟩ :=
          ih (i + 1) (c + r.length) m h
        refine ⟨r :: pre, r2, post, by rw [hsplit]; simp, ?_, ?_, ?_, ?_, ?_⟩
        · rw [hidx]; simp [List.length_cons]; omega
        · simp [runsLen]; omega
        · simp [runsLen]; omega
        · rw [hrs]; congr 1; simp [runsLen]; omega
        · rw [hre]; congr 2; simp [runsLen]; omega

theorem walkPaint_past_end (s e : Nat) :
    ∀ (runs : List (List Char)) (i c : Nat), c + runsLen runs ≤ s →
    walkPaint s e runs i c = none := by
  intro runs
  induction runs with
  | nil => intro i c _; rfl
  | cons r rs ih =>
      intro i c hle
      rw [walkPaint, if_neg, ih (i + 1) (c + r.length)]
      · simp [runsLen] at hle; omega
      · simp [runsLen] at hle; omega

/-- C9: The highlight walker paints a marker only inside the single
rendered text run that contains `start_index`: the marker's run is the one
whose half-open interval contains `start_index`, its relative end is
clamped to that run's length (so a span crossing a formatting boundary is
truncated at the run's end), and a `start_index` at or beyond the total
rendered text length paints no marker at all. -/
theorem c9_marker_single_run (fb : Feedback) (runs : List (List Char)) :
    (∀ m, walkPaint fb.start_index fb.end_index runs 0 0 = some m →
      ∃ pre r post, runs = pre ++ r :: post ∧
        m.runIdx = pre.length ∧
        runsLen pre ≤ fb.start_index ∧
        fb.start_index < runsLen pre + r.length ∧
        m.relStart = fb.start_index - runsLen pre ∧
        m.relEnd = min (fb.end_index - runsLen pre) r.length) ∧
    (runsLen runs ≤ fb.start_index →
      walkPaint fb.start_index fb.end_index runs 0 0 = none) := by
  constructor
  · intro m h
    obtain ⟨pre, r, post, hsplit, hidx, hlo, hhi, hrs, hre⟩ :=
      walkPaint_some fb.start_index fb.end_index runs 0 0 m h
    exact ⟨pre, r, post, hsplit, by simpa using hidx, by simpa using hlo,
      by simpa using hhi, by simpa using hrs, by simpa using hre⟩
  · intro hle
    exact walkPaint_past_end fb.start_index fb.end_index runs 0 0
      (by simpa using hle)

/-- Closed instance of `c9_marker_single_run`: a record whose
`start_index` (12) lies beyond the rendered text "HelloWorld" paints no
marker. -/
theorem c9_marker_single_run_witness :
    walkPaint 12 15 ["Hello".data, "World".data] 0 0 = none :=
  (c9_marker_single_run
    { original_sentence := [], feedback := [], suggested_text := [],
      issue_type := .style, severity := .low, start_index := 12,
      end_index := 15, status := .pending }
    ["Hello".data, "World".data]).2 (by decide)

theorem highlightOne_text_preserved (paint : PaintPrim)
    (hpres : ∀ rs m rs2, paint rs m = some rs2 →
      runsConcat rs2 = runsConcat rs)
    (runs : List (List Char)) (fb : Feedback) :
    runsConcat (highlightOne paint runs fb).1 = runsConcat runs := by
  cases hw : walkPaint fb.start_index fb.end_index runs 0 0 with
  | none => simp [highlightOne, hw]
  | some m =>
      simp only [highlightOne, hw]
      cases hp : paint runs m with
      | none => rfl
      | some runs2 => exact hpres runs m runs2 hp

theorem highlightPass_text_preserved (paint : PaintPrim)
    (hpres : ∀ rs m rs2, paint rs m = some rs2 →
      runsConcat rs2 = runsConcat rs) :
    ∀ (fbs : List Feedback) (runs : List (List Char)),
    runsConcat (highlightPass paint runs fbs).1 = runsConcat runs := by
  intro fbs
  induction fbs with
  | nil => intro runs; rfl
  | cons fb rest ih =>
      intro runs
      rw [highlightPass]
      by_cases hs : fb.status = Status.pending
      · rw [if_pos hs]
        calc runsConcat (highlightPass paint (highlightOne paint runs fb).1 rest).1
            = runsConcat (highlightOne paint runs fb).1 :=
              ih (highlightOne paint runs fb).1
          _ = runsConcat runs := highlightOne_text_preserved paint hpres runs fb
      · rw [if_neg hs]; exact ih runs

/-- C4: For every highlight refresh over any feedback set — including sets
with overlapping pending spans — the pass always completes with the
rendered document text intact (given that every successful DOM paint
preserves the text, while a throwing paint is caught), the feedback
records are only read (so a skipped record's status remains `pending`),
and a record whose span cannot be isolated (no containing run, or the DOM
surgery throws) is silently dropped: it changes nothing and contributes no
marker. -/
theorem c4_highlight_refresh_safe (paint : PaintPrim)
    (hpres : ∀ rs m rs2, paint rs m = some rs2 →
      runsConcat rs2 = runsConcat rs)
    (v : EditorView) :
    runsConcat ((highlightRefresh paint v).1).runs = runsConcat v.runs ∧
    ((highlightRefresh paint v).1).feedbacks = v.feedbacks ∧
    (∀ rs fb, walkPaint fb.start_index fb.end_index rs 0 0 = none →
      highlightOne paint rs fb = (rs, none)) ∧
    (∀ rs fb m, walkPaint fb.start_index fb.end_index rs 0 0 = some m →
      paint rs m = none → highlightOne paint rs fb = (rs, none)) := by
  refine ⟨?_, rfl, ?_, ?_⟩
  · exact highlightPass_text_preserved paint hpres v.feedbacks v.runs
  · intro rs fb hw; simp only [highlightOne, hw]
  · intro rs fb m hw hp; simp only [highlightOne, hw, hp]

/-- Closed instance of `c4_highlight_refresh_safe`: two pending records
with overlapping spans over the rendered text "HelloWorld", painted with a
text-preserving primitive — the refresh preserves the text and the
records. -/
theorem c4_highlight_refresh_safe_witness :
    runsConcat ((highlightRefresh (fun rs _ => some rs)
      ⟨["Hello".data, "World".data],
        [{ original_sentence := [], feedback := [], suggested_text := [],
           issue_type := .npov, severity := .high, start_index := 1,
           end_index := 6, status := .pending },
         { original_sentence := [], feedback := [], suggested_text := [],
           issue_type := .style, severity := .low, start_index := 4,
           end_index := 8, status := .pending }]⟩).1).runs =
    runsConcat ["Hello".data, "World".data] :=
  (c4_highlight_refresh_safe (fun rs _ => some rs)
    (fun rs m rs2 h => by cases h; rfl)
    ⟨["Hello".data, "World".data],
      [{ original_sentence := [], feedback := [], suggested_text := [],
         issue_type := .npov, severity := .high, start_index := 1,
         end_index := 6, status := .pending },
       { original_sentence := [], feedback := [], suggested_text := [],
         issue_type := .style, severity := .low, start_index := 4,
         end_index := 8, status := .pending }]⟩).1

theorem tokMin_ge_pos (t : Tok) : t.pos ≤ tokMin t := by
  unfold tokMin; split <;> omega

theorem getPosAux_lower (X fallback : Nat) :
    ∀ (ts : List Tok) (i c : Nat), (∀ t ∈ ts, X ≤ tokMin t) →
    X ≤ fallback → X ≤ getPosAux fallback ts i c := by
  intro ts
  induction ts with
  | nil => intro i c _ hfb; exact hfb
  | cons t ts ih =>
      intro i c hmin hfb
      rw [getPosAux]
      by_cases hin : i < c + t.text.length
      · rw [if_pos hin]
        have hm := hmin t (List.mem_cons_self t ts)
        unfold tokMin at hm
        by_cases hv : t.isVirtual
        · rw [if_pos hv]; rw [if_pos hv] at hm; exact hm
        · rw [if_neg hv]; rw [if_neg hv] at hm; omega
      · rw [if_neg hin]
        exact ih i (c + t.text.length)
          (fun u hu => hmin u (List.mem_cons_of_mem t hu)) hfb

theorem getPosAux_mono (fallback : Nat) :
    ∀ (ts : List Tok),
    List.Pairwise (fun a b => tokEnd a ≤ tokMin b) ts →
    (∀ t ∈ ts, tokEnd t ≤ fallback) →
    ∀ (i j c : Nat), i ≤ j →
    getPosAux fallback ts i c ≤ getPosAux fallback ts j c := by
  intro ts
  induction ts with
  | nil => intro _ _ i j c _; exact Nat.le_refl _
  | cons t ts ih =>
      intro hpw hfb i j c hij
      obtain ⟨hhead, htail⟩ := List.pairwise_cons.mp hpw
      have hfb_t : tokEnd t ≤ fallback := hfb t (List.mem_cons_self t ts)
      have hfb' : ∀ u ∈ ts, tokEnd u ≤ fallback :=
        fun u hu => hfb u (List.mem_cons_of_mem t hu)
      rw [getPosAux, getPosAux]
      by_cases hj : j < c + t.text.length
      · have hi : i < c + t.text.length := Nat.lt_of_le_of_lt hij hj
        rw [if_pos hi, if_pos hj]
        cases hv : t.isVirtual with
        | true => simp [hv]
        | false => simp [hv]; omega
      · rw [if_neg hj]
        by_cases hi : i < c + t.text.length
        · rw [if_pos hi]
          have hval : (if t.isVirtual = true then t.pos + 1
              else t.pos + (i - c)) ≤ tokEnd t := by
            cases hv : t.isVirtual with
            | true => simp [tokEnd, hv]
            | false => simp [tokEnd, hv]; omega
          have hrec : tokEnd t ≤
              getPosAux fallback ts j (c + t.text.length) :=
            getPosAux_lower (tokEnd t) fallback ts j (c + t.text.length)
              hhead hfb_t
          exact Nat.le_trans hval hrec
        · rw [if_neg hi]
          exact ih htail hfb' i j (c + t.text.length) hij

mutual

theorem tokBounds_node (pos : Nat) (n : PMNode) :
    ∀ t ∈ tokensOfNode pos n, pos ≤ t.pos ∧ tokEnd t ≤ pos + nodeSize n := by
  cases n with
  | text s =>
      intro t ht
      simp only [tokensOfNode, List.mem_singleton] at ht
      subst ht
      refine ⟨Nat.le_refl _, ?_⟩
      simp [tokEnd, nodeSize]
  | block cs =>
      intro t ht
      simp only [tokensOfNode, List.mem_cons] at ht
      rcases ht with rfl | ht
      · refine ⟨Nat.le_refl _, ?_⟩
        simp only [tokEnd, nodeSize]
        simp
        omega
      · have := tokBounds_list (pos + 1) cs t ht
        simp only [nodeSize]
        omega

theorem tokBounds_list (pos : Nat) (ns : List PMNode) :
    ∀ t ∈ tokensOfList pos ns,
      pos ≤ t.pos ∧ tokEnd t ≤ pos + sizeOfList ns := by
  cases ns with
  | nil => intro t ht; simp [tokensOfList] at ht
  | cons n ms =>
      intro t ht
      simp only [tokensOfList, List.mem_append] at ht
      rcases ht with ht | ht
      · have := tokBounds_node pos n t ht
        simp only [sizeOfList]
        omega
      · have := tokBounds_list (pos + nodeSize n) ms t ht
        simp only [sizeOfList]
        omega

end

mutual

theorem tokPairwise_node (pos : Nat) (n : PMNode) :
    List.Pairwise (fun a b => tokEnd a ≤ tokMin b) (tokensOfNode pos n) := by
  cases n with
  | text s => simp [tokensOfNode]
  | block cs =>
      rw [tokensOfNode]
      refine List.pairwise_cons.mpr ⟨?_, tokPairwise_list (pos + 1) cs⟩
      intro b hb
      have hbd := (tokBounds_list (pos + 1) cs b hb).1
      have hmin := tokMin_ge_pos b
      simp only [tokEnd]
      norm_num
      omega

theorem tokPairwise_list (pos : Nat) (ns : List PMNode) :
    List.Pairwise (fun a b => tokEnd a ≤ tokMin b) (tokensOfList pos ns) := by
  cases ns with
  | nil => simp [tokensOfList]
  | cons n ms =>
      rw [tokensOfList]
      refine List.pairwise_append.mpr
        ⟨tokPairwise_node pos n, tokPairwise_list (pos + nodeSize n) ms, ?_⟩
      intro a ha b hb
      have hae := (tokBounds_node pos n a ha).2
      have hbp := (tokBounds_list (pos + nodeSize n) ms b hb).1
      have hmin := tokMin_ge_pos b
      omega

end

mutual

theorem tokVirtualText_node (pos : Nat) (n : PMNode) :
    ∀ t ∈ tokensOfNode pos n, t.isVirtual = true → t.text = ['\n'] := by
  cases n with
  | text s =>
      intro t ht hv
      simp only [tokensOfNode, List.mem_singleton] at ht
      subst ht
      simp at hv
  | block cs =>
      intro t ht hv
      simp only [tokensOfNode, List.mem_cons] at ht
      rcases ht with rfl | ht
      · rfl
      · exact tokVirtualText_list (pos + 1) cs t ht hv

theorem tokVirtualText_list (pos : Nat) (ns : List PMNode) :
    ∀ t ∈ tokensOfList pos ns, t.isVirtual = true → t.text = ['\n'] := by
  cases ns with
  | nil => intro t ht; simp [tokensOfList] at ht
  | cons n ms =>
      intro t ht hv
      simp only [tokensOfList, List.mem_append] at ht
      rcases ht with ht | ht
      · exact tokVirtualText_node pos n t ht hv
      · exact tokVirtualText_list (pos + nodeSize n) ms t ht hv

end

theorem tokGood_of_virtualText (t : Tok)
    (h : t.isVirtual = true → t.text = ['\n']) :
    tokEnd t ≤ t.pos + t.text.length ∧ tokMin t ≤ t.pos + t.text.length := by
  unfold tokEnd tokMin
  by_cases hv : t.isVirtual
  · rw [if_pos hv, if_pos hv, h hv]; simp
  · rw [if_neg hv, if_neg hv]; omega

theorem fallbackPos_reaches (ts : List Tok) (h : ts ≠ []) :
    ∃ lt, lt ∈ ts ∧ fallbackPos ts = lt.pos + lt.text.length := by
  refine ⟨ts.getLast h, List.getLast_mem h, ?_⟩
  unfold fallbackPos
  rw [List.getLast?_eq_getLast ts h]

theorem tokEnd_le_fallback :
    ∀ ts : List Tok,
    List.Pairwise (fun a b => tokEnd a ≤ tokMin b) ts →
    (∀ t ∈ ts, t.isVirtual = true → t.text = ['\n']) →
    ∀ t ∈ ts, tokEnd t ≤ fallbackPos ts := by
  intro ts
  induction ts with
  | nil => intro _ _ t ht; simp at ht
  | cons t0 rest ih =>
      intro hpw hgood t ht
      obtain ⟨hhead, htail⟩ := List.pairwise_cons.mp hpw
      cases rest with
      | nil =>
          rcases List.mem_singleton.mp ht with rfl
          have := tokGood_of_virtualText t (hgood t (by simp))
          simpa [fallbackPos] using this.1
      | cons u l =>
          have hfb : fallbackPos (t0 :: u :: l) = fallbackPos (u :: l) := by
            simp [fallbackPos, List.getLast?_cons_cons]
          rw [hfb]
          rcases List.mem_cons.mp ht with rfl | ht2
          · obtain ⟨lt, hlt_mem, hlt_eq⟩ :=
              fallbackPos_reaches (u :: l) (by simp)
            have h1 : tokEnd t ≤ tokMin lt := hhead lt hlt_mem
            have h2 := (tokGood_of_virtualText lt
              (hgood lt (List.mem_cons_of_mem t hlt_mem))).2
            omega
          · exact ih htail
              (fun v hv => hgood v (List.mem_cons_of_mem t0 hv)) t ht2

/-- C6: For every document, the flat-offset-to-document-position mapping is
monotonically non-decreasing: offsets `i ≤ j` map to positions
`getPosFromIndex (docTokens d) i ≤ getPosFromIndex (docTokens d) j`. -/
theorem c6_getPos_monotone (d : PMDoc) (i j : Nat) (hij : i ≤ j) :
    getPosFromIndex (docTokens d) i ≤ getPosFromIndex (docTokens d) j := by
  have hpw := tokPairwise_list 0 d
  have hgood := tokVirtualText_list 0 d
  exact getPosAux_mono (fallbackPos (docTokens d)) (docTokens d) hpw
    (tokEnd_le_fallback (docTokens d) hpw hgood) i j 0 hij

/-- Closed instance of `c6_getPos_monotone` on a two-paragraph document. -/
theorem c6_getPos_monotone_witness :
    getPosFromIndex
      (docTokens [PMNode.block [PMNode.text "A".data],
        PMNode.block [PMNode.text "B".data]]) 0 ≤
    getPosFromIndex
      (docTokens [PMNode.block [PMNode.text "A".data],
        PMNode.block [PMNode.text "B".data]]) 2 :=
  c6_getPos_monotone
    [PMNode.block [PMNode.text "A".data], PMNode.block [PMNode.text "B".data]]
    0 2 (by decide)

theorem textConcat_length (ts : List Tok) :
    (textConcat ts).length = tokLenSum ts := by
  induction ts with
  | nil => rfl
  | cons t ts ih => simp [textConcat, tokLenSum, ih]

theorem getPosAux_at_virtual (fallback : Nat) :
    ∀ (l1 : List Tok) (v : Tok) (l2 : List Tok) (i c : Nat),
    v.isVirtual = true →
    c + tokLenSum l1 ≤ i → i < c + tokLenSum l1 + v.text.length →
    getPosAux fallback (l1 ++ v :: l2) i c = v.pos + 1 := by
  intro l1
  induction l1 with
  | nil =>
      intro v l2 i c hv hlo hhi
      simp only [tokLenSum] at hlo hhi
      rw [List.nil_append, getPosAux, if_pos (by omega), if_pos hv]
  | cons t l1 ih =>
      intro v l2 i c hv hlo hhi
      simp only [tokLenSum] at hlo hhi
      rw [List.cons_append, getPosAux, if_neg (by omega)]
      exact ih v l2 i (c + t.text.length) hv (by omega) (by omega)

theorem getPosAux_past_end (fallback : Nat) :
    ∀ (ts : List Tok) (i c : Nat), c + tokLenSum ts ≤ i →
    getPosAux fallback ts i c = fallback := by
  intro ts
  induction ts with
  | nil => intro i c _; rfl
  | cons t ts ih =>
      intro i c h
      simp only [tokLenSum] at h
      rw [getPosAux, if_neg (by omega)]
      exact ih i (c + t.text.length) (by omega)

theorem chain_pair_of_append {R : Tok → Tok → Prop} :
    ∀ (l1 : List Tok) (a b : Tok) (l2 : List Tok),
    List.Chain' R (l1 ++ a :: b :: l2) → R a b := by
  intro l1
  induction l1 with
  | nil => intro a b l2 h; exact (List.chain'_cons.mp h).1
  | cons x xs ih =>
      intro a b l2 h
      exact ih a b l2 (by simpa using h.tail)

theorem head_tokensOfList_pos :
    ∀ (pos : Nat) (ns : List PMNode) (b : Tok),
    (tokensOfList pos ns).head? = some b → b.pos = pos := by
  intro pos ns b h
  cases ns with
  | nil => simp [tokensOfList] at h
  | cons n ms =>
      cases n with
      | text s =>
          simp only [tokensOfList, tokensOfNode, List.cons_append,
            List.head?_cons, Option.some.injEq] at h
          rw [← h]
      | block cs =>
          simp only [tokensOfList, tokensOfNode, List.cons_append,
            List.head?_cons, Option.some.injEq] at h
          rw [← h]

theorem head_tokensOfList_virtual :
    ∀ (pos : Nat) (n : PMNode) (ms : List PMNode) (b : Tok),
    isBlockNode n = true →
    (tokensOfList pos (n :: ms)).head? = some b → b.isVirtual = true := by
  intro pos n ms b hbl h
  cases n with
  | text s => simp [isBlockNode] at hbl
  | block cs =>
      simp only [tokensOfList, tokensOfNode, List.cons_append,
        List.head?_cons, Option.some.injEq] at h
      rw [← h]

mutual

theorem adjChain_node (pos : Nat) (n : PMNode) (hwf : wfNode n = true) :
    List.Chain' adjOK (tokensOfNode pos n) := by
  cases n with
  | text s => simp [tokensOfNode]
  | block cs =>
      rw [wfNode, Bool.and_eq_true] at hwf
      rw [tokensOfNode]
      refine List.chain'_cons'.mpr ⟨?_, adjChain_list (pos + 1) cs hwf.2 hwf.1⟩
      intro b hb
      have := head_tokensOfList_pos (pos + 1) cs b (by simpa using hb)
      intro _ _
      simpa using this

theorem adjChain_list (pos : Nat) (ns : List PMNode)
    (hwf : wfList ns = true) (hio : inlineOrBlocks ns = true) :
    List.Chain' adjOK (tokensOfList pos ns) := by
  cases ns with
  | nil => simp [tokensOfList]
  | cons n ms =>
      rw [wfList, Bool.and_eq_true] at hwf
      rw [tokensOfList]
      rw [inlineOrBlocks, Bool.or_eq_true] at hio
      rcases hio with hin | hbl
      · simp only [List.all_cons, Bool.and_eq_true, Bool.not_eq_true'] at hin
        cases n with
        | block cs => simp [isBlockNode] at hin
        | text s =>
            refine List.chain'_append.mpr
              ⟨by simp [tokensOfNode], ?_, ?_⟩
            · refine adjChain_list (pos + nodeSize (PMNode.text s)) ms hwf.2 ?_
              rw [inlineOrBlocks, Bool.or_eq_true]
              left
              simpa [List.all_eq_true, Bool.not_eq_true'] using hin.2
            · intro a ha b _
              simp only [tokensOfNode, List.getLast?_singleton,
                Option.mem_def, Option.some.injEq] at ha
              intro hva
              rw [← ha] at hva
              simp at hva
      · simp only [List.all_cons, Bool.and_eq_true] at hbl
        refine List.chain'_append.mpr
          ⟨adjChain_node pos n hwf.1, ?_, ?_⟩
        · refine adjChain_list (pos + nodeSize n) ms hwf.2 ?_
          rw [inlineOrBlocks, Bool.or_eq_true]
          right
          simpa [List.all_eq_true] using hbl.2
        · intro a _ b hb
          cases ms with
          | nil => simp [tokensOfList] at hb
          | cons m ms2 =>
              have hmbl : isBlockNode m = true := by
                have := hbl.2
                simp only [List.all_cons, Bool.and_eq_true] at this
                exact this.1
              have := head_tokensOfList_virtual (pos + nodeSize n) m ms2 b
                hmbl (by simpa using hb)
              intro _ hrb
              rw [this] at hrb
              simp at hrb

end

theorem tokensOfNode_ne_nil (pos : Nat) (n : PMNode) :
    tokensOfNode pos n ≠ [] := by
  cases n <;> simp [tokensOfNode]

theorem tokensOfList_ne_nil (pos : Nat) (ns : List PMNode) (h : ns ≠ []) :
    tokensOfList pos ns ≠ [] := by
  cases ns with
  | nil => exact absurd rfl h
  | cons n ms =>
      rw [tokensOfList]
      simp [tokensOfNode_ne_nil pos n]

theorem endPosList_cons_cons (pos : Nat) (a b : PMNode) (l : List PMNode) :
    endPosList pos (a :: b :: l) = endPosList (pos + nodeSize a) (b :: l) :=
  rfl

mutual

theorem lastTok_node (pos : Nat) (n : PMNode) :
    ∃ t, (tokensOfNode pos n).getLast? = some t ∧
      t.pos + t.text.length = nodeEndPos pos n := by
  cases n with
  | text s =>
      exact ⟨⟨s, pos, false⟩, by simp [tokensOfNode], by simp [nodeEndPos]⟩
  | block cs =>
      cases cs with
      | nil =>
          exact ⟨⟨['\n'], pos, true⟩, by simp [tokensOfNode, tokensOfList],
            by simp [nodeEndPos]⟩
      | cons m ms =>
          obtain ⟨t, ht, hend⟩ := lastTok_list (pos + 1) (m :: ms) (by simp)
          refine ⟨t, ?_, ?_⟩
          · rw [tokensOfNode, List.getLast?_cons, ht]
            simp
          · rw [hend, nodeEndPos]

theorem lastTok_list (pos : Nat) (ns : List PMNode) (h : ns ≠ []) :
    ∃ t, (tokensOfList pos ns).getLast? = some t ∧
      t.pos + t.text.length = endPosList pos ns := by
  cases ns with
  | nil => exact absurd rfl h
  | cons n ms =>
      cases ms with
      | nil =>
          obtain ⟨t, ht, hend⟩ := lastTok_node pos n
          refine ⟨t, ?_, ?_⟩
          · rw [tokensOfList, tokensOfList, List.append_nil]
            exact ht
          · rw [hend, endPosList]
      | cons m ms2 =>
          obtain ⟨t, ht, hend⟩ :=
            lastTok_list (pos + nodeSize n) (m :: ms2) (by simp)
          refine ⟨t, ?_, ?_⟩
          · rw [tokensOfList,
              List.getLast?_append_of_ne_nil _
                (tokensOfList_ne_nil (pos + nodeSize n) (m :: ms2) (by simp))]
            exact ht
          · rw [hend, endPosList_cons_cons]

end

theorem fallback_eq_docEnd (d : PMDoc) :
    fallbackPos (docTokens d) = docEndPos d := by
  cases d with
  | nil => rfl
  | cons n ms =>
      obtain ⟨t, ht, hend⟩ := lastTok_list 0 (n :: ms) (by simp)
      rw [docTokens, fallbackPos, ht, docEndPos, ← hend]

/-- C7 counterexample: in the well-formed document consisting of one block
that contains a nested block holding the text "a" (as a bullet list holds
its items), offset 0 falls inside the first synthetic boundary token
(which spans flat offsets `[0, 1)`), the only real content token starts at
document position 2, yet `getPosFromIndex` maps offset 0 to position 1 —
inside the nested block boundary, not at the start of the following real
content. -/
theorem c7_counterexample :
    wfDoc [PMNode.block [PMNode.block [PMNode.text ['a']]]] = true ∧
    docTokens [PMNode.block [PMNode.block [PMNode.text ['a']]]] =
      [⟨['\n'], 0, true⟩, ⟨['\n'], 1, true⟩, ⟨['a'], 2, false⟩] ∧
    (∀ t ∈ docTokens [PMNode.block [PMNode.block [PMNode.text ['a']]]],
      t.isVirtual = false → t.pos = 2) ∧
    getPosFromIndex
      (docTokens [PMNode.block [PMNode.block [PMNode.text ['a']]]]) 0 = 1 ∧
    (1 : Nat) ≠ 2 := by
  refine ⟨by decide, by decide, by decide, by decide, by decide⟩

/-- C7 (amended): in a well-formed document, an offset falling inside a
synthetic block-boundary token maps to the position one past the block
boundary; when the token directly following the synthetic token is a real
text run (the block directly contains text) that position is exactly the
start of that run — for deeper nesting it can land on a further block
boundary instead — and an offset at or beyond the total flat-text length
maps to the end-of-document position. -/
theorem c7_amended (d : PMDoc) (hwf : wfDoc d = true) :
    (∀ (l1 l2 : List Tok) (v r : Tok) (i : Nat),
      docTokens d = l1 ++ v :: r :: l2 →
      v.isVirtual = true → r.isVirtual = false →
      tokLenSum l1 ≤ i → i < tokLenSum l1 + v.text.length →
      getPosFromIndex (docTokens d) i = r.pos) ∧
    (∀ i : Nat, (fullText d).length ≤ i →
      getPosFromIndex (docTokens d) i = docEndPos d) := by
  constructor
  · intro l1 l2 v r i hsplit hv hr hlo hhi
    have hchain : List.Chain' adjOK (docTokens d) := by
      rw [wfDoc, Bool.and_eq_true] at hwf
      refine adjChain_list 0 d hwf.2 ?_
      rw [inlineOrBlocks, Bool.or_eq_true]
      right
      exact hwf.1
    have hadj : r.pos = v.pos + 1 := by
      rw [hsplit] at hchain
      exact chain_pair_of_append l1 v r l2 hchain hv hr
    rw [getPosFromIndex, hsplit]
    rw [getPosAux_at_virtual
      (fallbackPos (l1 ++ v :: r :: l2)) l1 v (r :: l2) i 0 hv
      (by omega) (by omega)]
    omega
  · intro i hlen
    rw [fullText, textConcat_length] at hlen
    rw [getPosFromIndex, getPosAux_past_end (fallbackPos (docTokens d))
      (docTokens d) i 0 (by omega), fallback_eq_docEnd]

/-- Closed instance of `c7_amended` on the document with one paragraph
"Hi": offset 0 (inside the leading boundary token) maps to position 1, the
start of the text run, and offset 5 (past the flat text of length 3) maps
to the end-of-document position 3. -/
theorem c7_amended_witness :
    getPosFromIndex (docTokens [PMNode.block [PMNode.text ['H', 'i']]]) 0 =
      (Tok.mk ['H', 'i'] 1 false).pos ∧
    getPosFromIndex (docTokens [PMNode.block [PMNode.text ['H', 'i']]]) 5 =
      docEndPos [PMNode.block [PMNode.text ['H', 'i']]] := by
  have h := c7_amended [PMNode.block [PMNode.text ['H', 'i']]] (by decide)
  exact ⟨h.1 [] [] ⟨['\n'], 0, true⟩ ⟨['H', 'i'], 1, false⟩ 0
      (by decide) (by decide) (by decide) (by decide) (by decide),
    h.2 5 (by decide)⟩

theorem takeWhile_append_of_all (p : Char → Bool) :
    ∀ (a b : List Char), (∀ c ∈ a, p c = true) →
    (a ++ b).takeWhile p = a ++ b.takeWhile p := by
  intro a
  induction a with
  | nil => intro b _; rfl
  | cons c cs ih =>
      intro b h
      rw [List.cons_append, List.takeWhile_cons,
        if_pos (h c (List.mem_cons_self c cs)), ih b
          (fun x hx => h x (List.mem_cons_of_mem c hx)), List.cons_append]

theorem takeWhile_nil_of_head (p : Char → Bool) (c : Char) (l : List Char)
    (h : p c = false) : (c :: l).takeWhile p = [] := by
  rw [List.takeWhile_cons, if_neg (by simp [h])]

theorem drop_takeWhile_length (p : Char → Bool) (l : List Char) :
    l.drop (l.takeWhile p).length = l.dropWhile p := by
  calc l.drop (l.takeWhile p).length
      = (l.takeWhile p ++ l.dropWhile p).drop (l.takeWhile p).length := by
        rw [List.takeWhile_append_dropWhile]
    _ = l.dropWhile p := List.drop_left _ _

theorem take_append_exact (a b : List Char) (k : Nat) :
    (a ++ b).take (a.length + k) = a ++ b.take k := by
  simp [List.take_append_eq_append_take]

theorem listPre_append (u w : List Char) : listPre u (u ++ w) = true := by
  induction u with
  | nil => rfl
  | cons a as ih => simp [listPre, ih]

theorem listPre_decomp :
    ∀ (u v : List Char), listPre u v = true → v = u ++ v.drop u.length := by
  intro u
  induction u with
  | nil => intro v _; rfl
  | cons a as ih =>
      intro v h
      cases v with
      | nil => simp [listPre] at h
      | cons b bs =>
          rw [listPre, Bool.and_eq_true, beq_iff_eq] at h
          obtain ⟨rfl, h2⟩ := h
          rw [List.cons_append, List.length_cons, List.drop_succ_cons,
            ← ih bs h2]

theorem wordsAux_good :
    ∀ (s acc : List Char), (∀ c ∈ acc, jsWs c = false) →
    ∀ w ∈ wordsAux acc s, w ≠ [] ∧ ∀ c ∈ w, jsWs c = false := by
  intro s
  induction s with
  | nil =>
      intro acc hacc w hw
      rw [wordsAux] at hw
      by_cases he : acc.isEmpty
      · rw [if_pos he] at hw; simp at hw
      · rw [if_neg he] at hw
        rcases List.mem_singleton.mp hw with rfl
        refine ⟨by simpa [List.isEmpty_iff] using he, ?_⟩
        intro c hc
        exact hacc c (List.mem_reverse.mp hc)
  | cons c cs ih =>
      intro acc hacc w hw
      rw [wordsAux] at hw
      by_cases hws : jsWs c
      · rw [if_pos hws] at hw
        by_cases he : acc.isEmpty
        · rw [if_pos he] at hw
          exact ih [] (by simp) w hw
        · rw [if_neg he] at hw
          rcases List.mem_cons.mp hw with rfl | hw2
          · refine ⟨by simpa [List.isEmpty_iff] using he, ?_⟩
            intro x hx
            exact hacc x (List.mem_reverse.mp hx)
          · exact ih [] (by simp) w hw2
      · rw [if_neg hws] at hw
        refine ih (c :: acc) ?_ w hw
        intro x hx
        rcases List.mem_cons.mp hx with rfl | hx2
        · simpa using hws
        · exact hacc x hx2

theorem sentenceParts_tail_good (sentence : List Char) :
    ∀ w ∈ (sentenceParts sentence).tail,
      w ≠ [] ∧ ∀ c ∈ w, jsWs c = false := by
  intro w hw
  rw [sentenceParts] at hw
  by_cases he : (jsTrim sentence).isEmpty
  · simp [he] at hw
  · rw [if_neg he] at hw
    exact wordsAux_good (jsTrim sentence) [] (by simp) w
      (List.mem_of_mem_tail hw)

theorem matchRest_sound :
    ∀ (ws : List (List Char)) (text : List Char) (n : Nat),
    matchRest ws text = some n →
    n ≤ text.length ∧ SepRest ws (text.take n) := by
  intro ws
  induction ws with
  | nil =>
      intro text n h
      rw [matchRest] at h
      injection h with h
      subst h
      exact ⟨Nat.zero_le _, rfl⟩
  | cons w ws ih =>
      intro text n h
      rw [matchRest] at h
      simp only at h
      by_cases hsep : (text.takeWhile jsWs).isEmpty
      · rw [if_pos hsep] at h; exact absurd h (by simp)
      · rw [if_neg hsep] at h
        by_cases hpre :
            listPre w (text.drop (text.takeWhile jsWs).length) = true
        · rw [if_pos hpre] at h
          rcases Option.map_eq_some'.mp h with ⟨m, hm, hn⟩
          obtain ⟨hmle, hsr⟩ := ih _ m hm
          set A := text.takeWhile jsWs with hA
          set B := text.drop A.length with hB
          set C := B.drop w.length with hC
          have hdec1 : text = A ++ B := by
            rw [hB, hA, drop_takeWhile_length, List.takeWhile_append_dropWhile]
          have hdec2 : B = w ++ C := listPre_decomp w B hpre
          have hlenB : B.length = w.length + C.length := by
            rw [hdec2]; simp
          have hlen : text.length = A.length + B.length := by
            rw [hdec1]; simp
          refine ⟨by omega, ?_⟩
          rw [← hn]
          have hsplit : A.length + w.length + m = A.length + (w.length + m) := by
            omega
          rw [hsplit, hdec1, take_append_exact, hdec2, take_append_exact]
          refine ⟨A, C.take m, by simp, ?_, ?_, hsr⟩
          · simpa [List.isEmpty_iff] using hsep
          · intro c hc
            exact List.mem_takeWhile_imp hc
        · rw [if_neg hpre] at h; exact absurd h (by simp)

theorem matchRest_complete :
    ∀ (ws : List (List Char)),
    (∀ w ∈ ws, w ≠ [] ∧ ∀ c ∈ w, jsWs c = false) →
    ∀ (s : List Char), SepRest ws s →
    ∀ (t : List Char), matchRest ws (s ++ t) = some s.length := by
  intro ws
  induction ws with
  | nil =>
      intro _ s hs t
      rw [show s = ([] : List Char) from hs]
      rfl
  | cons w ws ih =>
      intro hgood s hs t
      obtain ⟨sep, rest, rfl, hsep_ne, hsep_ws, hsr⟩ := hs
      obtain ⟨hw_ne, hw_ws⟩ := hgood w (List.mem_cons_self w ws)
      have hassoc : sep ++ w ++ rest ++ t = sep ++ (w ++ (rest ++ t)) := by
        simp
      have htw : (sep ++ (w ++ (rest ++ t))).takeWhile jsWs = sep := by
        rw [takeWhile_append_of_all jsWs sep _ hsep_ws]
        cases w with
        | nil => exact absurd rfl hw_ne
        | cons c w0 =>
            rw [List.cons_append, takeWhile_nil_of_head jsWs c _
              (hw_ws c (List.mem_cons_self c w0)), List.append_nil]
      rw [hassoc, matchRest]
      simp only [htw]
      rw [if_neg (by simp [List.isEmpty_iff, hsep_ne]),
        List.drop_left, if_pos (by
          rw [show w ++ (rest ++ t) = w ++ (rest ++ t) from rfl]
          exact listPre_append w (rest ++ t)),
        List.drop_left, ih (fun u hu => hgood u (List.mem_cons_of_mem w hu))
          rest hsr t]
      simp only [Option.map_some', Option.some.injEq, List.length_append]

theorem matchAt_sound (pat : List (List Char)) (text : List Char) (L : Nat)
    (h : matchAt pat text = some L) :
    L ≤ text.length ∧ SepMatch pat (text.take L) := by
  cases pat with
  | nil =>
      rw [matchAt] at h
      injection h with h
      subst h
      exact ⟨Nat.zero_le _, rfl⟩
  | cons w ws =>
      rw [matchAt] at h
      by_cases hpre : listPre w text = true
      · rw [if_pos hpre] at h
        rcases Option.map_eq_some'.mp h with ⟨m, hm, hn⟩
        obtain ⟨hmle, hsr⟩ := matchRest_sound ws _ m hm
        have hdec : text = w ++ text.drop w.length := listPre_decomp w text hpre
        have hlen : text.length = w.length + (text.drop w.length).length := by
          conv_lhs => rw [hdec]
          simp
        have htake : text.take (w.length + m) =
            w ++ (text.drop w.length).take m := by
          conv_lhs => rw [hdec]
          rw [take_append_exact]
        refine ⟨by omega, ?_⟩
        rw [← hn, htake]
        exact ⟨(text.drop w.length).take m, rfl, hsr⟩
      · rw [if_neg hpre] at h; exact absurd h (by simp)

theorem matchAt_complete (pat : List (List Char))
    (hgood : ∀ w ∈ pat.tail, w ≠ [] ∧ ∀ c ∈ w, jsWs c = false)
    (s : List Char) (hs : SepMatch pat s) (t : List Char) :
    matchAt pat (s ++ t) = some s.length := by
  cases pat with
  | nil =>
      rw [show s = ([] : List Char) from hs]
      rfl
  | cons w ws =>
      obtain ⟨rest, rfl, hsr⟩ := hs
      rw [matchAt, List.append_assoc,
        if_pos (listPre_append w (rest ++ t)), List.drop_left,
        matchRest_complete ws (by simpa using hgood) rest hsr t]
      simp

theorem execFrom_sound (pat : List (List Char)) :
    ∀ (text : List Char) (p q e : Nat),
    execFrom pat p text = some (q, e) →
    p ≤ q ∧ q ≤ e ∧ q - p ≤ text.length ∧
    matchAt pat (text.drop (q - p)) = some (e - q) ∧
    ∀ m < q - p, matchAt pat (text.drop m) = none := by
  intro text
  induction text with
  | nil =>
      intro p q e h
      rw [execFrom] at h
      cases hm : matchAt pat [] with
      | none => rw [hm] at h; exact absurd h (by simp)
      | some L =>
          rw [hm] at h
          injection h with h
          injection h with h1 h2
          subst h1
          subst h2
          refine ⟨Nat.le_refl _, Nat.le_add_right _ _, by simp, ?_, ?_⟩
          · simpa using hm
          · intro m hm2; omega
  | cons c t ih =>
      intro p q e h
      rw [execFrom] at h
      cases hm : matchAt pat (c :: t) with
      | some L =>
          rw [hm] at h
          injection h with h
          injection h with h1 h2
          subst h1
          subst h2
          refine ⟨Nat.le_refl _, Nat.le_add_right _ _, by simp, ?_, ?_⟩
          · simpa using hm
          · intro m hm2; omega
      | none =>
          rw [hm] at h
          obtain ⟨hpq, hqe, hlen, hmat, hnone⟩ := ih (p + 1) q e h
          have hge : q - p = (q - (p + 1)) + 1 := by omega
          refine ⟨by omega, hqe, by simp; omega, ?_, ?_⟩
          · rw [hge, List.drop_succ_cons]
            exact hmat
          · intro m hm2
            cases m with
            | zero => simpa using hm
            | succ m0 =>
                rw [List.drop_succ_cons]
                exact hnone m0 (by omega)

theorem execFrom_none (pat : List (List Char)) :
    ∀ (text : List Char) (p : Nat),
    execFrom pat p text = none →
    ∀ m, matchAt pat (text.drop m) = none := by
  intro text
  induction text with
  | nil =>
      intro p h m
      rw [execFrom] at h
      cases hm : matchAt pat [] with
      | none => simpa using hm
      | some L => rw [hm] at h; exact absurd h (by simp)
  | cons c t ih =>
      intro p h m
      rw [execFrom] at h
      cases hm : matchAt pat (c :: t) with
      | some L => rw [hm] at h; exact absurd h (by simp)
      | none =>
          rw [hm] at h
          cases m with
          | zero => simpa using hm
          | succ m0 =>
              rw [List.drop_succ_cons]
              exact ih (p + 1) h m0

/-- C2: The locator returns the first (leftmost) span of the flat text
matching the pattern built by splitting the trimmed sentence on whitespace
runs and joining the literal words with one-or-more-whitespace separators
(`SepMatch`): a returned span matches the pattern and no earlier start
offset carries any match, and a `NotFound` result means no substring of
the flat text matches at all — so whitespace drift is tolerated but any
differing word forces `NotFound`.  In particular, locating "The sky is
green." in "The sky is blue." yields `NotFound`, while locating
"Climate change is important." in "Climate   change\nis important."
returns the span covering the whole flat text. -/
theorem c2_locator_first_pattern_match (flatText sentence : List Char) :
    (∀ p e, locate flatText sentence = some (p, e) →
      p ≤ e ∧ e ≤ flatText.length ∧
      SepMatch (sentenceParts sentence) ((flatText.drop p).take (e - p)) ∧
      (∀ q m, q < p →
        ¬ SepMatch (sentenceParts sentence) ((flatText.drop q).take m))) ∧
    (locate flatText sentence = none →
      ∀ q m, ¬ SepMatch (sentenceParts sentence) ((flatText.drop q).take m)) ∧
    locate "The sky is blue.".data "The sky is green.".data = none ∧
    locate "Climate   change\nis important.".data
        "Climate change is important.".data =
      some (0, "Climate   change\nis important.".data.length) := by
  refine ⟨?_, ?_, by rfl, by rfl⟩
  · intro p e h
    rw [locate] at h
    obtain ⟨h0p, hpe, hplen, hmat, hnone⟩ :=
      execFrom_sound (sentenceParts sentence) flatText 0 p e h
    rw [Nat.sub_zero] at hplen hmat hnone
    obtain ⟨hLle, hsm⟩ := matchAt_sound (sentenceParts sentence) _ _ hmat
    have hdlen : (flatText.drop p).length = flatText.length - p := by simp
    refine ⟨hpe, by omega, hsm, ?_⟩
    intro q m hq hsm2
    have hc := matchAt_complete (sentenceParts sentence)
      (sentenceParts_tail_good sentence) _ hsm2 ((flatText.drop q).drop m)
    rw [List.take_append_drop] at hc
    rw [hnone q hq] at hc
    exact absurd hc (by simp)
  · intro h q m hsm
    rw [locate] at h
    have hc := matchAt_complete (sentenceParts sentence)
      (sentenceParts_tail_good sentence) _ hsm ((flatText.drop q).drop m)
    rw [List.take_append_drop] at hc
    rw [execFrom_none (sentenceParts sentence) flatText 0 h q] at hc
    exact absurd hc (by simp)

/-- Closed instance of `c2_locator_first_pattern_match`: since the locator
reports `NotFound` for "The sky is green." against "The sky is blue.", no
substring of that flat text matches the sentence's word pattern. -/
theorem c2_locator_first_pattern_match_witness :
    ¬ SepMatch (sentenceParts "The sky is green.".data)
      (("The sky is blue.".data.drop 0).take 16) :=
  (c2_locator_first_pattern_match "The sky is blue.".data
    "The sky is green.".data).2.1 rfl 0 16
